import Mathlib

/-!
Verification development for the `eventcomment` repository (`src/app.py`):
a shared comment board that wipes all comments every 300 seconds and, in the
invite variant, requires each comment to contain a fresh invitation URL with
a fixed prefix.

Strings are embedded as `List Char`.  Wall-clock time is embedded as `ℚ`
(seconds), matching the code's `float` second arithmetic; the SQLite store
is embedded as an explicit `DB` state record.  The regular-expression scan
for the pattern `(https?://[^\s]+)` used by `extract_urls` and `linkify`
is embedded as a fueled left-to-right scanner producing a list of `Piece`s.
-/

set_option maxRecDepth 8000

namespace EventComment

/-! ## Character and string utilities (Python `\s` and `str.strip`) -/

/-- The ASCII whitespace characters recognized by Python's `\s` class and
`str.strip()` (the inputs in play are ASCII). -/
def isSpace (c : Char) : Bool :=
  c = ' ' || c = '\t' || c = '\n' || c = '\r' || c = '\x0b' || c = '\x0c'

/-- Negation of `isSpace`, the character class `[^\s]` of the URL regex. -/
def notWs (c : Char) : Bool := !(isSpace c)

/-- The maximal run of non-whitespace characters at the front of `s`:
what the greedy `[^\s]+` consumes (together with the scheme) at a match. -/
def takeRun (s : List Char) : List Char := s.takeWhile notWs

/-- Python's `str.strip()`: remove leading and trailing whitespace. -/
def pyStrip (s : List Char) : List Char :=
  ((s.dropWhile isSpace).reverse.dropWhile isSpace).reverse

/-- Python's `str.startswith`: `p` is a literal prefix of `s`. -/
def startsWithList (p s : List Char) : Bool :=
  match p, s with
  | [], _ => true
  | _ :: _, [] => false
  | a :: p1, b :: s1 => decide (a = b) && startsWithList p1 s1

/-! ## The URL regex `(https?://[^\s]+)` -/

/-- The literal `http://`. -/
def httpLit : List Char := ['h', 't', 't', 'p', ':', '/', '/']

/-- The literal `https://`. -/
def httpsLit : List Char := ['h', 't', 't', 'p', 's', ':', '/', '/']

/-- Length of the scheme prefix `https?://` matched at the front of `s`,
if any (the regex alternative `https://` is tried before `http://`,
mirroring the greedy `s?`). -/
def schemeLen (s : List Char) : Option Nat :=
  if startsWithList httpsLit s then some 8
  else if startsWithList httpLit s then some 7
  else none

/-- One piece of the regex scan of a text: either a single literal
character that is not part of any match, or one full match of
`https?://[^\s]+`. -/
inductive Piece where
  | lit (c : Char)
  | url (u : List Char)
deriving DecidableEq

/-- Fueled left-to-right scan of the Python regex engine for the pattern
`(https?://[^\s]+)`: at each position, if the scheme matches and at least
one non-whitespace character follows it, emit the maximal non-whitespace
run as a match and continue after it (matches are non-overlapping);
otherwise emit the character as a literal and advance one position.
The fuel is an upper bound on the text length. -/
def reScanAux : Nat → List Char → List Piece
  | 0, _ => []
  | _ + 1, [] => []
  | fuel + 1, c :: rest =>
    match schemeLen (c :: rest) with
    | some k =>
      let run := takeRun (c :: rest)
      if k < run.length then
        Piece.url run :: reScanAux fuel ((c :: rest).drop run.length)
      else
        Piece.lit c :: reScanAux fuel rest
    | none => Piece.lit c :: reScanAux fuel rest

/-- The full regex scan of a text. -/
def reScan (s : List Char) : List Piece := reScanAux s.length s

/-- The list of matches of a scan, in order (Python `findall`). -/
def urlsOfPieces (ps : List Piece) : List (List Char) :=
  ps.filterMap fun p => match p with | Piece.url u => some u | Piece.lit _ => none

/-- `extract_urls` (src/app.py:160-166): all matches of `https?://[^\s]+`
in the text, deduplicated.  Python returns `list(set(...))` in unspecified
order; the embedding fixes first-occurrence order, and claims about it are
stated at the level of the underlying set. -/
def extract_urls (text : List Char) : List (List Char) :=
  (urlsOfPieces (reScan text)).dedup

/-- Rendering of one scan piece by `re.sub` with replacement `[url](url)`. -/
def renderPiece : Piece → List Char
  | Piece.lit c => [c]
  | Piece.url u => '[' :: u ++ [']', '('] ++ u ++ [')']

/-- Identity rendering of one scan piece (used to state that `linkify`
leaves non-match text unchanged). -/
def plainPiece : Piece → List Char
  | Piece.lit c => [c]
  | Piece.url u => u

/-- `linkify` (src/app.py:138-149): replace each match of the URL pattern
by the markdown hyperlink `[url](url)`, leaving all other text unchanged. -/
def linkify (text : List Char) : List Char :=
  ((reScan text).map renderPiece).flatten

/-! ## Whitespace tokenization (spec-side, for the `extractUrls` contract) -/

/-- Fueled splitting of a text into its maximal whitespace-delimited
substrings (tokens). -/
def wsTokensAux : Nat → List Char → List (List Char)
  | 0, _ => []
  | _ + 1, [] => []
  | fuel + 1, c :: rest =>
    if isSpace c then wsTokensAux fuel rest
    else takeRun (c :: rest) :: wsTokensAux fuel ((c :: rest).drop (takeRun (c :: rest)).length)

/-- The maximal whitespace-delimited substrings (tokens) of a text. -/
def wsTokens (s : List Char) : List (List Char) := wsTokensAux s.length s

/-- A token begins with `http://` or `https://`. -/
def schemeStart (tok : List Char) : Bool := (schemeLen tok).isSome

/-- Modelled from the spec's words (for comparison with `extract_urls`):
"the deduplicated set of exactly the maximal whitespace-delimited substrings
of the text that begin with http:// or https://". -/
def specTokenUrls (t : List Char) : List (List Char) :=
  ((wsTokens t).filter schemeStart).dedup

/-- A text is token-aligned when every occurrence of `http://`/`https://`
in it starts a whitespace-delimited token (is at position 0 or preceded by
whitespace) and is followed by at least one further non-whitespace
character.  On such texts the regex matches are exactly the
scheme-initial tokens. -/
def tokenAligned (t : List Char) : Prop :=
  ∀ i, i < t.length → (schemeLen (t.drop i)).isSome = true →
    (i = 0 ∨ (t[i-1]?.any isSpace) = true) ∧
    (schemeLen (t.drop i)).getD 0 < (takeRun (t.drop i)).length

instance (t : List Char) : Decidable (tokenAligned t) := by
  unfold tokenAligned; infer_instance

/-! ## Data model: comments, the store, the cycle record -/

/-- Time in seconds (UTC), embedding `datetime` values; differences of
`datetime`s are `float` seconds in the code, embedded as `ℚ`. -/
abbrev Time := ℚ

/-- One row of the `comments` table. -/
structure Comment where
  id : Nat
  username : List Char
  content : List Char
  createdAt : Time
deriving DecidableEq

/-- The SQLite database state: the `comments` table in insertion order
(ids are assigned by `AUTOINCREMENT`, embedded as the `nextId` counter),
and the singleton `meta` row holding `cycle_start` (absent before first
access). -/
structure DB where
  comments : List Comment
  nextId : Nat
  cycleStart : Option Time
deriving DecidableEq

/-- `RESET_SECONDS = 300` (src/app.py:13). -/
def RESET_SECONDS : ℚ := 300

/-- `REQUIRED_PREFIX` (src/app.py:6). -/
def REQUIRED_PREFIX_STR : List Char :=
  String.toList "https://gf2-h5.haoplay.com/der-strandurlaub/kr/share?invite_token="

/-- The configured default username stored for blank submissions
(src/app.py:236, the Korean word for "anonymous"). -/
def defaultUsername : List Char := String.toList "익명"

/-! ## Store operations (src/app.py:54-133) -/

/-- `get_cycle_start` (src/app.py:54-69): read the cycle-start record,
creating it with value `now` if absent. -/
def get_cycle_start (db : DB) (now : Time) : Time × DB :=
  match db.cycleStart with
  | none => (now, { db with cycleStart := some now })
  | some t => (t, db)

/-- `reset_comments_if_needed` (src/app.py:72-94): read (or create, at time
`tGet`) the cycle start, compute `elapsed = now - cycle_start`; if
`elapsed >= RESET_SECONDS`, delete all comments and set the cycle start to
`now`, returning `(now, elapsed, true)`; otherwise return
`(cycle_start, elapsed, false)`.  The updated database is returned as the
fourth component.  `tGet` is the wall-clock instant of the inner
`datetime.utcnow()` call in `get_cycle_start` (used only on first access),
`now` the instant of the outer one. -/
def reset_comments_if_needed (db : DB) (tGet now : Time) : Time × Time × Bool × DB :=
  let p := get_cycle_start db tGet
  let elapsed := now - p.1
  if RESET_SECONDS ≤ elapsed then
    (now, elapsed, true, { p.2 with comments := [], cycleStart := some now })
  else
    (p.1, elapsed, false, p.2)

/-- `add_comment` (src/app.py:97-107): insert one row, with the next
auto-assigned id and `created_at = now`. -/
def add_comment (db : DB) (username content : List Char) (now : Time) : DB :=
  { db with
    comments := db.comments ++ [⟨db.nextId, username, content, now⟩]
    nextId := db.nextId + 1 }

/-- `get_comments` (src/app.py:110-120): all rows ordered by id descending
(ids are assigned in insertion order, so this is the reverse of the
insertion-ordered table). -/
def get_comments (db : DB) : List Comment := db.comments.reverse

/-- `get_all_urls` (src/app.py:122-133): the set of URLs extracted from
every stored comment's content (embedded as a deduplicated list, used only
through membership). -/
def get_all_urls (db : DB) : List (List Char) :=
  ((db.comments.map fun cm => extract_urls cm.content).flatten).dedup

/-! ## Remaining-time display (src/app.py:180-183) -/

/-- Python's `int()` applied to a real number: truncation toward zero. -/
def pyInt (q : ℚ) : ℤ := if 0 ≤ q then ⌊q⌋ else ⌈q⌉

/-- The displayed remaining seconds: `remaining = int(RESET_SECONDS -
elapsed)`, clamped below at `0` (src/app.py:180-182). -/
def remainingDisplay (elapsed : ℚ) : ℤ := max 0 (pyInt (RESET_SECONDS - elapsed))

/-! ## The submit handler (src/app.py:207-238) -/

/-- The URLs of a submission that start with the required prefix
(src/app.py:215). -/
def gfLinks (content : List Char) : List (List Char) :=
  (extract_urls content).filter fun u => startsWithList REQUIRED_PREFIX_STR u

/-- The outcome of one submission, one constructor per branch of the
handler: the empty-content warning, the missing-invite-link error, the
duplicate-link error carrying the offending URLs, and success. -/
inductive SubmitResult where
  | emptyContent
  | missingRequiredLink
  | duplicateLink (urls : List (List Char))
  | success
deriving DecidableEq

/-- The invite-variant submit handler (src/app.py:207-238): reject blank
content; extract the URLs and keep those with the required prefix,
rejecting if none; reject with the offending URLs if any of them already
occurs in a stored comment; otherwise store the comment with trimmed
content and trimmed (or defaulted) username. -/
def handle_submit (db : DB) (now : Time) (username content : List Char) :
    SubmitResult × DB :=
  if (pyStrip content).isEmpty then (SubmitResult.emptyContent, db)
  else
    let gf := gfLinks content
    if gf.isEmpty then (SubmitResult.missingRequiredLink, db)
    else
      let dups := gf.filter fun u => decide (u ∈ get_all_urls db)
      if dups.isEmpty then
        let uname := if (pyStrip username).isEmpty then defaultUsername else pyStrip username
        (SubmitResult.success, add_comment db uname (pyStrip content) now)
      else (SubmitResult.duplicateLink dups, db)

/-- Modelled from the spec: the plain (non-invite) variant's submit
handler, whose source file is one of the "two near-identical files" but is
not present under `src/`; spec §4.5: "if plain variant, reject only on
empty content; ... on success, default blank username to 'Anonymous',
trim whitespace from both fields, append". -/
def submitPlain (db : DB) (now : Time) (username content : List Char) :
    SubmitResult × DB :=
  if (pyStrip content).isEmpty then (SubmitResult.emptyContent, db)
  else
    let uname := if (pyStrip username).isEmpty then defaultUsername else pyStrip username
    (SubmitResult.success, add_comment db uname (pyStrip content) now)

/-! ## Scanner lemmas: fuel congruence and one-step unfolding -/

lemma takeRun_cons_pos {c : Char} {rest : List Char} (h : notWs c = true) :
    takeRun (c :: rest) = c :: takeRun rest := by
  simp [takeRun, List.takeWhile_cons, h]

lemma takeRun_pos_of_scheme {c : Char} {rest : List Char} {k : Nat}
    (_h : schemeLen (c :: rest) = some k) (h2 : k < (takeRun (c :: rest)).length) :
    0 < (takeRun (c :: rest)).length :=
  Nat.lt_of_le_of_lt (Nat.zero_le k) h2

lemma reScanAux_congr : ∀ (f1 f2 : Nat) (s : List Char),
    s.length ≤ f1 → s.length ≤ f2 → reScanAux f1 s = reScanAux f2 s := by
  intro f1
  induction f1 with
  | zero =>
    intro f2 s h1 _
    have : s = [] := List.eq_nil_of_length_eq_zero (Nat.le_zero.mp h1)
    subst this
    cases f2 <;> rfl
  | succ f1 ih =>
    intro f2 s h1 h2
    cases s with
    | nil => cases f2 <;> rfl
    | cons c rest =>
      cases f2 with
      | zero => exact absurd h2 (by simp)
      | succ f2 =>
        simp only [List.length_cons, Nat.succ_le_succ_iff] at h1 h2
        simp only [reScanAux]
        cases hsl : schemeLen (c :: rest) with
        | none => simp only [ih f2 rest h1 h2]
        | some k =>
          simp only []
          by_cases hk : k < (takeRun (c :: rest)).length
          · have hpos := takeRun_pos_of_scheme hsl hk
            have hd : ((c :: rest).drop (takeRun (c :: rest)).length).length ≤ f1 := by
              rw [List.length_drop]
              simp only [List.length_cons]
              omega
            have hd2 : ((c :: rest).drop (takeRun (c :: rest)).length).length ≤ f2 := by
              rw [List.length_drop]
              simp only [List.length_cons]
              omega
            simp only [if_pos hk, ih f2 _ hd hd2]
          · simp only [if_neg hk, ih f2 rest h1 h2]

lemma reScanAux_eq_reScan {fuel : Nat} {s : List Char} (h : s.length ≤ fuel) :
    reScanAux fuel s = reScan s :=
  reScanAux_congr fuel s.length s h (Nat.le_refl _)

lemma reScan_nil : reScan [] = [] := rfl

lemma reScan_cons_none {c : Char} {rest : List Char} (h : schemeLen (c :: rest) = none) :
    reScan (c :: rest) = Piece.lit c :: reScan rest := by
  show reScanAux (c :: rest).length (c :: rest) = _
  simp only [List.length_cons, reScanAux, h]
  rfl

lemma reScan_cons_noextend {c : Char} {rest : List Char} {k : Nat}
    (h : schemeLen (c :: rest) = some k) (h2 : ¬ k < (takeRun (c :: rest)).length) :
    reScan (c :: rest) = Piece.lit c :: reScan rest := by
  show reScanAux (c :: rest).length (c :: rest) = _
  simp only [List.length_cons, reScanAux, h, if_neg h2]
  rfl

lemma reScan_cons_url {c : Char} {rest : List Char} {k : Nat}
    (h : schemeLen (c :: rest) = some k) (h2 : k < (takeRun (c :: rest)).length) :
    reScan (c :: rest) =
      Piece.url (takeRun (c :: rest)) ::
        reScan ((c :: rest).drop (takeRun (c :: rest)).length) := by
  show reScanAux (c :: rest).length (c :: rest) = _
  simp only [List.length_cons, reScanAux, h, if_pos h2]
  refine congrArg _ (reScanAux_eq_reScan ?_)
  have hpos := takeRun_pos_of_scheme h h2
  rw [List.length_drop]
  simp only [List.length_cons]
  omega

lemma wsTokensAux_congr : ∀ (f1 f2 : Nat) (s : List Char),
    s.length ≤ f1 → s.length ≤ f2 → wsTokensAux f1 s = wsTokensAux f2 s := by
  intro f1
  induction f1 with
  | zero =>
    intro f2 s h1 _
    have : s = [] := List.eq_nil_of_length_eq_zero (Nat.le_zero.mp h1)
    subst this
    cases f2 <;> rfl
  | succ f1 ih =>
    intro f2 s h1 h2
    cases s with
    | nil => cases f2 <;> rfl
    | cons c rest =>
      cases f2 with
      | zero => exact absurd h2 (by simp)
      | succ f2 =>
        simp only [List.length_cons, Nat.succ_le_succ_iff] at h1 h2
        simp only [wsTokensAux]
        by_cases hc : isSpace c = true
        · simp only [if_pos hc, ih f2 rest h1 h2]
        · have hpos : 0 < (takeRun (c :: rest)).length := by
            rw [takeRun_cons_pos (by simp [notWs, Bool.eq_false_iff.mpr hc])]
            simp
          have hd : ((c :: rest).drop (takeRun (c :: rest)).length).length ≤ f1 := by
            rw [List.length_drop]; simp only [List.length_cons]; omega
          have hd2 : ((c :: rest).drop (takeRun (c :: rest)).length).length ≤ f2 := by
            rw [List.length_drop]; simp only [List.length_cons]; omega
          simp only [if_neg hc, ih f2 _ hd hd2]

lemma wsTokens_nil : wsTokens [] = [] := rfl

lemma wsTokens_cons_ws {c : Char} {rest : List Char} (h : isSpace c = true) :
    wsTokens (c :: rest) = wsTokens rest := by
  show wsTokensAux (c :: rest).length (c :: rest) = _
  simp only [List.length_cons, wsTokensAux, if_pos h]
  rfl

lemma wsTokens_cons_tok {c : Char} {rest : List Char} (h : isSpace c = false) :
    wsTokens (c :: rest) =
      takeRun (c :: rest) :: wsTokens ((c :: rest).drop (takeRun (c :: rest)).length) := by
  show wsTokensAux (c :: rest).length (c :: rest) = _
  simp only [List.length_cons, wsTokensAux]
  rw [if_neg (by simp [h])]
  refine congrArg _ (wsTokensAux_congr rest.length _ _ ?_ (Nat.le_refl _))
  have hpos : 0 < (takeRun (c :: rest)).length := by
    rw [takeRun_cons_pos (by simp [notWs, h])]
    simp
  rw [List.length_drop]
  simp only [List.length_cons]
  omega

/-! ## Scheme-occurrence and whitespace facts -/

lemma startsWithList_true_iff : ∀ {p s : List Char}, startsWithList p s = true ↔ p <+: s := by
  intro p
  induction p with
  | nil =>
    intro s
    show true = true ↔ _
    simp
  | cons a p1 ih =>
    intro s
    cases s with
    | nil =>
      show false = true ↔ _
      simp
    | cons b s1 =>
      show (decide (a = b) && startsWithList p1 s1) = true ↔ _
      rw [Bool.and_eq_true, decide_eq_true_iff, List.cons_prefix_cons, ih]

lemma schemeLen_isSome_iff {s : List Char} :
    (schemeLen s).isSome = true ↔ (httpsLit <+: s ∨ httpLit <+: s) := by
  unfold schemeLen
  split_ifs with h1 h2
  · simp [startsWithList_true_iff.mp h1]
  · simp [startsWithList_true_iff.mp h2]
  · constructor
    · intro h
      exact absurd h (by simp)
    · rintro (hp | hp)
      · exact absurd (startsWithList_true_iff.mpr hp) h1
      · exact absurd (startsWithList_true_iff.mpr hp) h2

lemma scheme_https_notWs : ∀ c ∈ httpsLit, notWs c = true := by decide

lemma scheme_http_notWs : ∀ c ∈ httpLit, notWs c = true := by decide

lemma schemeLen_cons_head {c : Char} {s : List Char}
    (h : (schemeLen (c :: s)).isSome = true) : c = 'h' := by
  rcases schemeLen_isSome_iff.mp h with hp | hp
  · have hp' : 'h' :: ['t', 't', 'p', 's', ':', '/', '/'] <+: c :: s := hp
    exact (List.cons_prefix_cons.mp hp').1.symm
  · have hp' : 'h' :: ['t', 't', 'p', ':', '/', '/'] <+: c :: s := hp
    exact (List.cons_prefix_cons.mp hp').1.symm

lemma schemeLen_cons_of_ws {c : Char} {s : List Char} (h : isSpace c = true) :
    schemeLen (c :: s) = none := by
  cases hq : schemeLen (c :: s) with
  | none => rfl
  | some k =>
    have hc : c = 'h' := schemeLen_cons_head (by rw [hq]; rfl)
    subst hc
    exact absurd h (by decide)

lemma urlsOfPieces_lit_cons {c : Char} {ps : List Piece} :
    urlsOfPieces (Piece.lit c :: ps) = urlsOfPieces ps := by
  simp [urlsOfPieces]

lemma urlsOfPieces_url_cons {u : List Char} {ps : List Piece} :
    urlsOfPieces (Piece.url u :: ps) = u :: urlsOfPieces ps := by
  simp [urlsOfPieces]

lemma urls_reScan_drop_of_noscheme : ∀ (m : Nat) (s : List Char),
    (∀ j, j < m → schemeLen (s.drop j) = none) →
    urlsOfPieces (reScan s) = urlsOfPieces (reScan (s.drop m)) := by
  intro m
  induction m with
  | zero => intro s _; rfl
  | succ m ih =>
    intro s h
    have h0 : schemeLen s = none := by simpa using h 0 (Nat.succ_pos m)
    cases s with
    | nil => rfl
    | cons c rest =>
      rw [reScan_cons_none h0, urlsOfPieces_lit_cons, List.drop_succ_cons]
      exact ih rest fun j hj => by
        simpa [List.drop_succ_cons] using h (j + 1) (Nat.succ_lt_succ hj)

lemma prefix_append_ws : ∀ (l t w : List Char), (∀ c ∈ l, notWs c = true) →
    (∀ c ∈ w, isSpace c = true) → (l <+: t ++ w ↔ l <+: t) := by
  intro l
  induction l with
  | nil => intro t w _ _; simp
  | cons a l1 ih =>
    intro t w hl hw
    cases t with
    | nil =>
      simp only [List.nil_append, List.prefix_nil]
      constructor
      · intro hp
        cases w with
        | nil => exact absurd hp (by simp)
        | cons b w1 =>
          have hab : a = b := (List.cons_prefix_cons.mp hp).1
          have ha : notWs a = true := hl a (by simp)
          have hb : isSpace b = true := hw b (by simp)
          rw [hab, notWs, hb] at ha
          simp at ha
      · intro hp
        simp at hp
    | cons b t1 =>
      simp only [List.cons_append, List.cons_prefix_cons]
      exact and_congr_right fun _ => ih t1 w (fun c hc => hl c (by simp [hc])) hw

lemma startsWithList_append_ws {l t w : List Char} (hl : ∀ c ∈ l, notWs c = true)
    (hw : ∀ c ∈ w, isSpace c = true) :
    startsWithList l (t ++ w) = startsWithList l t := by
  rw [Bool.eq_iff_iff, startsWithList_true_iff, startsWithList_true_iff]
  exact prefix_append_ws l t w hl hw

lemma schemeLen_append_ws {t w : List Char} (hw : ∀ c ∈ w, isSpace c = true) :
    schemeLen (t ++ w) = schemeLen t := by
  unfold schemeLen
  rw [startsWithList_append_ws scheme_https_notWs hw,
    startsWithList_append_ws scheme_http_notWs hw]

lemma takeWhile_notWs_of_ws {w : List Char} (hw : ∀ c ∈ w, isSpace c = true) :
    w.takeWhile notWs = [] := by
  cases w with
  | nil => rfl
  | cons b w1 =>
    have hb : isSpace b = true := hw b (by simp)
    simp [List.takeWhile_cons, notWs, hb]

lemma takeRun_append_ws {t w : List Char} (hw : ∀ c ∈ w, isSpace c = true) :
    takeRun (t ++ w) = takeRun t := by
  unfold takeRun
  rw [List.takeWhile_append]
  split_ifs with h
  · rw [takeWhile_notWs_of_ws hw, List.append_nil]
    exact ((List.takeWhile_prefix notWs).eq_of_length h).symm
  · rfl

lemma takeRun_length_le (s : List Char) : (takeRun s).length ≤ s.length :=
  (List.takeWhile_prefix notWs).length_le

lemma urls_reScan_of_all_ws : ∀ (w : List Char), (∀ c ∈ w, isSpace c = true) →
    urlsOfPieces (reScan w) = [] := by
  intro w
  induction w with
  | nil => intro _; rfl
  | cons c w1 ih =>
    intro hw
    rw [reScan_cons_none (schemeLen_cons_of_ws (hw c (by simp))), urlsOfPieces_lit_cons]
    exact ih fun c hc => hw c (by simp [hc])

lemma urls_reScan_ws_append : ∀ (w t : List Char), (∀ c ∈ w, isSpace c = true) →
    urlsOfPieces (reScan (w ++ t)) = urlsOfPieces (reScan t) := by
  intro w
  induction w with
  | nil => intro t _; rfl
  | cons c w1 ih =>
    intro t hw
    rw [List.cons_append,
      reScan_cons_none (schemeLen_cons_of_ws (hw c (by simp))), urlsOfPieces_lit_cons]
    exact ih t fun c hc => hw c (by simp [hc])

lemma urls_reScan_append_ws_aux : ∀ (n : Nat) (t w : List Char), t.length ≤ n →
    (∀ c ∈ w, isSpace c = true) →
    urlsOfPieces (reScan (t ++ w)) = urlsOfPieces (reScan t) := by
  intro n
  induction n with
  | zero =>
    intro t w ht hw
    have : t = [] := List.eq_nil_of_length_eq_zero (Nat.le_zero.mp ht)
    subst this
    simpa using urls_reScan_of_all_ws w hw
  | succ n ih =>
    intro t w ht hw
    cases t with
    | nil => simpa using urls_reScan_of_all_ws w hw
    | cons c rest =>
      have hsl : schemeLen (c :: (rest ++ w)) = schemeLen (c :: rest) := by
        rw [← List.cons_append]
        exact schemeLen_append_ws hw
      have hrun : takeRun (c :: (rest ++ w)) = takeRun (c :: rest) := by
        rw [← List.cons_append]
        exact takeRun_append_ws hw
      simp only [List.length_cons, Nat.succ_le_succ_iff] at ht
      rw [List.cons_append]
      cases hq : schemeLen (c :: rest) with
      | none =>
        rw [reScan_cons_none (hsl.trans hq), reScan_cons_none hq,
          urlsOfPieces_lit_cons, urlsOfPieces_lit_cons]
        exact ih rest w ht hw
      | some k =>
        by_cases hk : k < (takeRun (c :: rest)).length
        · have h2 : k < (takeRun (c :: (rest ++ w))).length := by rw [hrun]; exact hk
          rw [reScan_cons_url (hsl.trans hq) h2, reScan_cons_url hq hk,
            urlsOfPieces_url_cons, urlsOfPieces_url_cons, hrun]
          have hdrop : (c :: (rest ++ w)).drop (takeRun (c :: rest)).length =
              ((c :: rest).drop (takeRun (c :: rest)).length) ++ w := by
            rw [← List.cons_append]
            exact List.drop_append_of_le_length (takeRun_length_le _)
          rw [hdrop]
          refine congrArg _ (ih ((c :: rest).drop (takeRun (c :: rest)).length) w ?_ hw)
          have hpos := takeRun_pos_of_scheme hq hk
          rw [List.length_drop]
          simp only [List.length_cons]
          omega
        · have h2 : ¬ k < (takeRun (c :: (rest ++ w))).length := by rw [hrun]; exact hk
          rw [reScan_cons_noextend (hsl.trans hq) h2, reScan_cons_noextend hq hk,
            urlsOfPieces_lit_cons, urlsOfPieces_lit_cons]
          exact ih rest w ht hw

lemma urls_reScan_append_ws {t w : List Char} (hw : ∀ c ∈ w, isSpace c = true) :
    urlsOfPieces (reScan (t ++ w)) = urlsOfPieces (reScan t) :=
  urls_reScan_append_ws_aux t.length t w (Nat.le_refl _) hw

/-! ## Invariance of the URL scan under `str.strip` (claim C10) -/

lemma pyStrip_decomp (t : List Char) :
    t = t.takeWhile isSpace ++
      (pyStrip t ++ ((t.dropWhile isSpace).reverse.takeWhile isSpace).reverse) := by
  conv_lhs => rw [← List.takeWhile_append_dropWhile (p := isSpace) (l := t)]
  refine congrArg _ ?_
  conv_lhs => rw [← List.reverse_reverse (t.dropWhile isSpace),
    ← List.takeWhile_append_dropWhile (p := isSpace) (l := (t.dropWhile isSpace).reverse),
    List.reverse_append]
  rfl

lemma urls_reScan_pyStrip (t : List Char) :
    urlsOfPieces (reScan (pyStrip t)) = urlsOfPieces (reScan t) := by
  conv_rhs => rw [pyStrip_decomp t]
  rw [urls_reScan_ws_append _ _ fun c hc => List.mem_takeWhile_imp hc,
    urls_reScan_append_ws fun c hc =>
      List.mem_takeWhile_imp (List.mem_reverse.mp hc)]

lemma extract_urls_pyStrip (t : List Char) :
    extract_urls (pyStrip t) = extract_urls t := by
  unfold extract_urls
  rw [urls_reScan_pyStrip]

/-! ## Reconstruction of the text from its scan (for `linkify`) -/

lemma drop_takeWhile_length (p : Char → Bool) : ∀ (l : List Char),
    l.drop (l.takeWhile p).length = l.dropWhile p := by
  intro l
  induction l with
  | nil => rfl
  | cons a l1 ih =>
    cases ha : p a
    · simp [List.takeWhile_cons, List.dropWhile_cons, ha]
    · simp [List.takeWhile_cons, List.dropWhile_cons, ha, ih]

lemma takeRun_append_drop (s : List Char) :
    takeRun s ++ s.drop (takeRun s).length = s := by
  unfold takeRun
  rw [drop_takeWhile_length, List.takeWhile_append_dropWhile]

lemma reScan_plain_flatten_aux : ∀ (n : Nat) (t : List Char), t.length ≤ n →
    ((reScan t).map plainPiece).flatten = t := by
  intro n
  induction n with
  | zero =>
    intro t ht
    have : t = [] := List.eq_nil_of_length_eq_zero (Nat.le_zero.mp ht)
    subst this
    rfl
  | succ n ih =>
    intro t ht
    cases t with
    | nil => rfl
    | cons c rest =>
      simp only [List.length_cons, Nat.succ_le_succ_iff] at ht
      cases hq : schemeLen (c :: rest) with
      | none =>
        rw [reScan_cons_none hq]
        simp only [List.map_cons, List.flatten_cons, plainPiece]
        rw [ih rest ht]
        rfl
      | some k =>
        by_cases hk : k < (takeRun (c :: rest)).length
        · rw [reScan_cons_url hq hk]
          simp only [List.map_cons, List.flatten_cons, plainPiece]
          rw [ih _ ?_]
          · exact takeRun_append_drop (c :: rest)
          · have := takeRun_pos_of_scheme hq hk
            rw [List.length_drop]
            simp only [List.length_cons]
            omega
        · rw [reScan_cons_noextend hq hk]
          simp only [List.map_cons, List.flatten_cons, plainPiece]
          rw [ih rest ht]
          rfl

lemma reScan_plain_flatten (t : List Char) :
    ((reScan t).map plainPiece).flatten = t :=
  reScan_plain_flatten_aux t.length t (Nat.le_refl _)

lemma pieces_all_lit_of_no_urls {ps : List Piece} (h : urlsOfPieces ps = []) :
    ∀ p ∈ ps, ∃ c, p = Piece.lit c := by
  intro p hp
  cases p with
  | lit c => exact ⟨c, rfl⟩
  | url u =>
    exfalso
    have hu : u ∈ urlsOfPieces ps :=
      List.mem_filterMap.mpr ⟨Piece.url u, hp, rfl⟩
    rw [h] at hu
    exact absurd hu (List.not_mem_nil u)

lemma linkify_eq_self_of_no_urls {t : List Char} (h : urlsOfPieces (reScan t) = []) :
    linkify t = t := by
  unfold linkify
  rw [List.map_congr_left fun p hp => ?_, reScan_plain_flatten]
  obtain ⟨c, rfl⟩ := pieces_all_lit_of_no_urls h p hp
  rfl

/-! ## The regex matches are the scheme-initial tokens on aligned texts -/

lemma tokenAligned_drop {t : List Char} (h : tokenAligned t) (m : Nat) :
    tokenAligned (t.drop m) := by
  intro i hi hsome
  rw [List.drop_drop] at hsome
  have hit : m + i < t.length := by
    rw [List.length_drop] at hi
    omega
  have hmain := h (m + i) hit hsome
  refine ⟨?_, ?_⟩
  · by_cases hi0 : i = 0
    · exact Or.inl hi0
    · refine Or.inr ?_
      rcases hmain.1 with h0 | hws
      · omega
      · rw [List.getElem?_drop]
        have harith : m + (i - 1) = m + i - 1 := by omega
        rw [harith]
        exact hws
  · rw [List.drop_drop]
    exact hmain.2

lemma noscheme_within_run {t : List Char} (h : tokenAligned t)
    (h0 : schemeLen t = none) :
    ∀ j, j < (takeRun t).length → schemeLen (t.drop j) = none := by
  intro j hj
  cases hn : schemeLen (t.drop j) with
  | none => rfl
  | some k =>
    exfalso
    have hjlen : j < t.length := Nat.lt_of_lt_of_le hj (takeRun_length_le t)
    have hj1run : j - 1 < (takeRun t).length := Nat.lt_of_le_of_lt (Nat.sub_le j 1) hj
    have hj1len : j - 1 < t.length := Nat.lt_of_le_of_lt (Nat.sub_le j 1) hjlen
    have hmain := h j hjlen (by rw [hn]; rfl)
    have hpfx : takeRun t <+: t := List.takeWhile_prefix notWs
    have hrunchar : notWs (t.get ⟨j - 1, hj1len⟩) = true := by
      have hg := hpfx.getElem hj1run
      have hm := List.mem_takeWhile_imp (List.getElem_mem hj1run)
      rw [hg] at hm
      exact hm
    rcases hmain.1 with hj0 | hws
    · subst hj0
      rw [List.drop_zero, h0] at hn
      cases hn
    · rw [List.getElem?_eq_getElem hj1len] at hws
      simp only [Option.any_some] at hws
      simp [notWs, hws] at hrunchar

lemma prefix_takeWhile {p : Char → Bool} : ∀ (l t : List Char), (∀ c ∈ l, p c = true) →
    l <+: t → l <+: t.takeWhile p := by
  intro l
  induction l with
  | nil => intro t _ _; exact List.nil_prefix
  | cons a l1 ih =>
    intro t hl hp
    cases t with
    | nil => exact absurd hp (by simp)
    | cons b t1 =>
      obtain ⟨hab, hp1⟩ := List.cons_prefix_cons.mp hp
      have hb : p b = true := hab ▸ hl a (by simp)
      rw [List.takeWhile_cons_of_pos hb]
      exact List.cons_prefix_cons.mpr ⟨hab, ih t1 (fun c hc => hl c (by simp [hc])) hp1⟩

lemma schemeStart_takeRun_eq (t : List Char) :
    schemeStart (takeRun t) = (schemeLen t).isSome := by
  rw [schemeStart, Bool.eq_iff_iff, schemeLen_isSome_iff, schemeLen_isSome_iff]
  have hpfx : takeRun t <+: t := List.takeWhile_prefix notWs
  constructor
  · rintro (hp | hp)
    · exact Or.inl (hp.trans hpfx)
    · exact Or.inr (hp.trans hpfx)
  · rintro (hp | hp)
    · exact Or.inl (prefix_takeWhile _ t scheme_https_notWs hp)
    · exact Or.inr (prefix_takeWhile _ t scheme_http_notWs hp)

lemma urls_eq_schemeTokens_aux : ∀ (n : Nat) (t : List Char), t.length ≤ n →
    tokenAligned t →
    urlsOfPieces (reScan t) = (wsTokens t).filter schemeStart := by
  intro n
  induction n with
  | zero =>
    intro t ht _
    have : t = [] := List.eq_nil_of_length_eq_zero (Nat.le_zero.mp ht)
    subst this
    rfl
  | succ n ih =>
    intro t ht ha
    cases t with
    | nil => rfl
    | cons c rest =>
      simp only [List.length_cons, Nat.succ_le_succ_iff] at ht
      have hrest : tokenAligned rest := by
        have := tokenAligned_drop ha 1
        simpa using this
      by_cases hws : isSpace c = true
      · have h0 : schemeLen (c :: rest) = none := schemeLen_cons_of_ws hws
        rw [reScan_cons_none h0, urlsOfPieces_lit_cons, wsTokens_cons_ws hws]
        exact ih rest ht hrest
      · have hwsf : isSpace c = false := Bool.eq_false_iff.mpr hws
        rw [wsTokens_cons_tok hwsf]
        have hrunpos : 0 < (takeRun (c :: rest)).length := by
          rw [takeRun_cons_pos (by simp [notWs, hwsf])]
          simp
        have hlendrop : ((c :: rest).drop (takeRun (c :: rest)).length).length ≤ n := by
          rw [List.length_drop]
          simp only [List.length_cons]
          omega
        cases hq : schemeLen (c :: rest) with
        | none =>
          rw [urls_reScan_drop_of_noscheme _ _ (noscheme_within_run ha hq)]
          have hsfst : ¬ schemeStart (takeRun (c :: rest)) = true := by
            rw [schemeStart_takeRun_eq, hq]
            simp
          rw [List.filter_cons_of_neg hsfst]
          exact ih _ hlendrop (tokenAligned_drop ha _)
        | some k =>
          have hk : k < (takeRun (c :: rest)).length := by
            have h00 := (ha 0 (by simp) (by simp [hq])).2
            simpa [hq] using h00
          rw [reScan_cons_url hq hk, urlsOfPieces_url_cons]
          have hsfst : schemeStart (takeRun (c :: rest)) = true := by
            rw [schemeStart_takeRun_eq, hq]
            rfl
          rw [List.filter_cons_of_pos hsfst]
          exact congrArg _ (ih _ hlendrop (tokenAligned_drop ha _))

/-- On a token-aligned text, the deduplicated regex matches are exactly the
deduplicated scheme-initial whitespace tokens. -/
lemma extract_urls_eq_specTokenUrls {t : List Char} (h : tokenAligned t) :
    extract_urls t = specTokenUrls t := by
  unfold extract_urls specTokenUrls
  rw [urls_eq_schemeTokens_aux t.length t (Nat.le_refl _) h]

/-! ## State-machine lemmas -/

lemma get_cycle_start_none {db : DB} (h : db.cycleStart = none) (tg : Time) :
    get_cycle_start db tg = (tg, { db with cycleStart := some tg }) := by
  unfold get_cycle_start
  rw [h]

lemma reconcile_fresh {db : DB} (h : db.cycleStart = none) (tg now : Time) :
    reset_comments_if_needed db tg now =
      if RESET_SECONDS ≤ now - tg then
        (now, now - tg, true,
          { comments := [], nextId := db.nextId, cycleStart := some now })
      else (tg, now - tg, false, { db with cycleStart := some tg }) := by
  unfold reset_comments_if_needed
  rw [get_cycle_start_none h tg]

lemma get_cycle_start_some {db : DB} {t0 : Time} (h : db.cycleStart = some t0) (tg : Time) :
    get_cycle_start db tg = (t0, db) := by
  unfold get_cycle_start
  rw [h]

lemma reconcile_expired {db : DB} {t0 : Time} (tg : Time) {now : Time}
    (h : db.cycleStart = some t0) (he : RESET_SECONDS ≤ now - t0) :
    reset_comments_if_needed db tg now =
      (now, now - t0, true,
        { comments := [], nextId := db.nextId, cycleStart := some now }) := by
  unfold reset_comments_if_needed
  rw [get_cycle_start_some h tg]
  simp [he]

lemma reconcile_live {db : DB} {t0 : Time} (tg : Time) {now : Time}
    (h : db.cycleStart = some t0) (hne : now - t0 < RESET_SECONDS) :
    reset_comments_if_needed db tg now = (t0, now - t0, false, db) := by
  unfold reset_comments_if_needed
  rw [get_cycle_start_some h tg]
  simp [not_le.mpr hne]

lemma handle_submit_empty {db : DB} {now : Time} {username content : List Char}
    (h : pyStrip content = []) :
    handle_submit db now username content = (SubmitResult.emptyContent, db) := by
  unfold handle_submit
  rw [h]
  rfl

lemma handle_submit_missing {db : DB} {now : Time} {username content : List Char}
    (h1 : pyStrip content ≠ []) (h2 : gfLinks content = []) :
    handle_submit db now username content = (SubmitResult.missingRequiredLink, db) := by
  unfold handle_submit
  simp [List.isEmpty_iff, h1, h2]

lemma handle_submit_success {db : DB} {now : Time} {username content : List Char}
    (h1 : pyStrip content ≠ []) (h2 : gfLinks content ≠ [])
    (h3 : ∀ x ∈ gfLinks content, x ∉ get_all_urls db) :
    handle_submit db now username content =
      (SubmitResult.success,
        add_comment db
          (if (pyStrip username).isEmpty then defaultUsername else pyStrip username)
          (pyStrip content) now) := by
  unfold handle_submit
  have hdups : (gfLinks content).filter (fun u => decide (u ∈ get_all_urls db)) = [] := by
    rw [List.filter_eq_nil_iff]
    intro a ha
    simp [h3 a ha]
  simp [List.isEmpty_iff, h1, h2, hdups]

lemma handle_submit_dup {db : DB} {now : Time} {username content : List Char}
    {url : List Char} (h1 : pyStrip content ≠ [])
    (hu : url ∈ gfLinks content) (hex : url ∈ get_all_urls db) :
    handle_submit db now username content =
      (SubmitResult.duplicateLink
        ((gfLinks content).filter fun u => decide (u ∈ get_all_urls db)), db) ∧
      url ∈ (gfLinks content).filter fun u => decide (u ∈ get_all_urls db) := by
  have hne : gfLinks content ≠ [] := by
    intro hnil
    rw [hnil] at hu
    exact absurd hu (List.not_mem_nil url)
  have hmem : url ∈ (gfLinks content).filter fun u => decide (u ∈ get_all_urls db) := by
    rw [List.mem_filter]
    exact ⟨hu, by simp [hex]⟩
  have hdne : ((gfLinks content).filter fun u => decide (u ∈ get_all_urls db)) ≠ [] := by
    intro hnil
    rw [hnil] at hmem
    exact absurd hmem (List.not_mem_nil url)
  refine ⟨?_, hmem⟩
  unfold handle_submit
  simp [List.isEmpty_iff, h1, hne, hdne]

lemma handle_submit_success_inv {db : DB} {now : Time} {username content : List Char}
    (h : (handle_submit db now username content).1 = SubmitResult.success) :
    handle_submit db now username content =
      (SubmitResult.success,
        add_comment db
          (if (pyStrip username).isEmpty then defaultUsername else pyStrip username)
          (pyStrip content) now) := by
  by_cases h1 : pyStrip content = []
  · rw [handle_submit_empty h1] at h
    simp at h
  · by_cases h2 : gfLinks content = []
    · rw [handle_submit_missing h1 h2] at h
      simp at h
    · by_cases h3 : ∀ x ∈ gfLinks content, x ∉ get_all_urls db
      · exact handle_submit_success h1 h2 h3
      · push_neg at h3
        obtain ⟨url, hu, hex⟩ := h3
        rw [(handle_submit_dup h1 hu hex).1] at h
        simp at h

lemma mem_get_all_urls {db : DB} {url : List Char} :
    url ∈ get_all_urls db ↔ ∃ cm ∈ db.comments, url ∈ extract_urls cm.content := by
  unfold get_all_urls
  rw [List.mem_dedup, List.mem_flatten]
  constructor
  · rintro ⟨l, hl, hurl⟩
    rw [List.mem_map] at hl
    obtain ⟨cm, hcm, rfl⟩ := hl
    exact ⟨cm, hcm, hurl⟩
  · rintro ⟨cm, hcm, hurl⟩
    exact ⟨extract_urls cm.content, List.mem_map.mpr ⟨cm, hcm, rfl⟩, hurl⟩

lemma remainingDisplay_of_expired {e : ℚ} (h : RESET_SECONDS ≤ e) :
    remainingDisplay e = 0 := by
  unfold remainingDisplay pyInt
  have hle : RESET_SECONDS - e ≤ 0 := sub_nonpos.mpr h
  split_ifs with h0
  · have h00 : RESET_SECONDS - e = 0 := le_antisymm hle h0
    rw [h00]
    simp
  · exact max_eq_left (Int.ceil_le.mpr (by push_cast; exact hle))

/-! ## Rational-time facts used by the witnesses -/

lemma expired_at_400 : RESET_SECONDS ≤ (400 : ℚ) - 0 := by
  norm_num [RESET_SECONDS]

lemma live_at_100 : (100 : ℚ) - 0 < RESET_SECONDS := by
  norm_num [RESET_SECONDS]

/-! ## Claim C1 -/

/-- Claim C1, counterexample: with one stored comment, `cycleStart = 0` and
`now = 400` (elapsed 400 ≥ 300), `reset_comments_if_needed` does reset but
returns the actual elapsed value `400 - 0`, not `0`; the remaining-time
value `max(0, 300 - elapsed)` computed from the returned elapsed is `0`,
not the full 300-second interval claimed. -/
theorem claim_C1_counterexample :
    (reset_comments_if_needed (⟨[⟨1, ['u'], ['c'], 0⟩], 2, some 0⟩ : DB) 0 400).2.2.1 = true ∧
    (reset_comments_if_needed (⟨[⟨1, ['u'], ['c'], 0⟩], 2, some 0⟩ : DB) 0 400).2.1 ≠ 0 ∧
    max 0 (RESET_SECONDS -
      (reset_comments_if_needed (⟨[⟨1, ['u'], ['c'], 0⟩], 2, some 0⟩ : DB) 0 400).2.1) ≠
      RESET_SECONDS := by
  rw [reconcile_expired 0 rfl expired_at_400]
  refine ⟨rfl, by norm_num, ?_⟩
  norm_num [RESET_SECONDS]

/-- Claim C1 (amended): when reconcile finds `elapsed ≥ 300` since
`cycleStart`, it deletes all comments, sets `cycleStart = now`, and returns
`didReset = true` with the new `cycleStart` but the *actual* elapsed value
(≥ 300), so the remaining-time value `max(0, 300 - elapsed)` computed from
the returned elapsed equals `0` immediately after a reset, not the full
300-second interval. -/
theorem claim_C1_amended : ∀ (db : DB) (tg now t0 : Time),
    db.cycleStart = some t0 → RESET_SECONDS ≤ now - t0 →
    reset_comments_if_needed db tg now =
      (now, now - t0, true,
        { comments := [], nextId := db.nextId, cycleStart := some now }) ∧
    max 0 (RESET_SECONDS - (now - t0)) = 0 ∧
    remainingDisplay (now - t0) = 0 := by
  intro db tg now t0 h he
  exact ⟨reconcile_expired tg h he, max_eq_left (sub_nonpos.mpr he),
    remainingDisplay_of_expired he⟩

/-- Claim C1, witness of the amended theorem at `cycleStart = 0`,
`now = 400`. -/
theorem claim_C1_witness :
    reset_comments_if_needed (⟨[⟨1, ['u'], ['c'], 0⟩], 2, some 0⟩ : DB) 0 400 =
      (400, 400 - 0, true, { comments := [], nextId := 2, cycleStart := some 400 }) ∧
    max 0 (RESET_SECONDS - ((400 : ℚ) - 0)) = 0 ∧
    remainingDisplay ((400 : ℚ) - 0) = 0 :=
  claim_C1_amended ⟨[⟨1, ['u'], ['c'], 0⟩], 2, some 0⟩ 0 400 0 rfl expired_at_400

/-! ## Claim C2 -/

/-- Claim C2 (confirmed): in the invite variant, (1) a non-blank submission
none of whose URLs starts with the required prefix fails with the
missing-link error and leaves the store unchanged; (2) a non-blank
submission whose required-prefix URLs are all absent from the stored
comments succeeds and appends the comment; (3) after a successful
submission containing a required-prefix URL, any later non-blank
submission in the same cycle containing that same URL fails with the
duplicate-link error carrying the offending URL and leaves the store
unchanged; (4) after a cycle reset the same URL is accepted again. -/
theorem claim_C2 :
    (∀ (db : DB) (now : Time) (u c : List Char), pyStrip c ≠ [] → gfLinks c = [] →
      handle_submit db now u c = (SubmitResult.missingRequiredLink, db)) ∧
    (∀ (db : DB) (now : Time) (u c : List Char), pyStrip c ≠ [] → gfLinks c ≠ [] →
      (∀ x ∈ gfLinks c, x ∉ get_all_urls db) →
      handle_submit db now u c =
        (SubmitResult.success,
          add_comment db (if (pyStrip u).isEmpty then defaultUsername else pyStrip u)
            (pyStrip c) now)) ∧
    (∀ (db db1 : DB) (now now1 : Time) (u c u1 c1 url : List Char),
      handle_submit db now u c = (SubmitResult.success, db1) →
      url ∈ extract_urls c → startsWithList REQUIRED_PREFIX_STR url = true →
      pyStrip c1 ≠ [] → url ∈ extract_urls c1 →
      ∃ ds, handle_submit db1 now1 u1 c1 = (SubmitResult.duplicateLink ds, db1) ∧
        url ∈ ds) ∧
    (∀ (db : DB) (tg now now1 t0 : Time) (u1 c1 : List Char),
      db.cycleStart = some t0 → RESET_SECONDS ≤ now - t0 →
      pyStrip c1 ≠ [] → gfLinks c1 ≠ [] →
      (handle_submit (reset_comments_if_needed db tg now).2.2.2 now1 u1 c1).1 =
        SubmitResult.success) := by
  refine ⟨?_, ?_, ?_, ?_⟩
  · intro db now u c h1 h2
    exact handle_submit_missing h1 h2
  · intro db now u c h1 h2 h3
    exact handle_submit_success h1 h2 h3
  · intro db db1 now now1 u c u1 c1 url hsub hurl hsw h1' hurl1
    have hfst : (handle_submit db now u c).1 = SubmitResult.success := by rw [hsub]
    have hinv := handle_submit_success_inv hfst
    have hdb1 : db1 =
        add_comment db (if (pyStrip u).isEmpty then defaultUsername else pyStrip u)
          (pyStrip c) now :=
      congrArg Prod.snd (hsub.symm.trans hinv)
    have hex : url ∈ get_all_urls db1 := by
      rw [hdb1, mem_get_all_urls]
      refine ⟨_, List.mem_append_right _ (List.mem_singleton_self _), ?_⟩
      show url ∈ extract_urls (pyStrip c)
      rw [extract_urls_pyStrip]
      exact hurl
    have hgf1 : url ∈ gfLinks c1 := List.mem_filter.mpr ⟨hurl1, hsw⟩
    obtain ⟨heq, hmem⟩ := handle_submit_dup h1' hgf1 hex
    exact ⟨_, heq, hmem⟩
  · intro db tg now now1 t0 u1 c1 hcs he h1' hgf
    rw [reconcile_expired tg hcs he]
    show (handle_submit (⟨[], db.nextId, some now⟩ : DB) now1 u1 c1).1 =
      SubmitResult.success
    have h3 : ∀ x ∈ gfLinks c1, x ∉ get_all_urls (⟨[], db.nextId, some now⟩ : DB) := by
      intro x _
      exact List.not_mem_nil x
    rw [handle_submit_success h1' hgf h3]

/-- Claim C2, witness: a submission containing only a URL with a different
prefix is rejected with the missing-link error and nothing is stored. -/
theorem claim_C2_witness :
    handle_submit (⟨[], 1, some 0⟩ : DB) 0 (String.toList "bob")
      (String.toList "https://other-domain.com/x") =
      (SubmitResult.missingRequiredLink, (⟨[], 1, some 0⟩ : DB)) :=
  claim_C2.1 ⟨[], 1, some 0⟩ 0 (String.toList "bob")
    (String.toList "https://other-domain.com/x") (by decide) (by decide)

/-! ## Claim C3 -/

/-- Claim C3, counterexample: on the text `"http://"`, the whole text is a
maximal whitespace-delimited substring beginning with `http://`, so the
claimed set is `{"http://"}`, but the code's regex `https?://[^\s]+`
requires at least one non-whitespace character after the scheme and
`extract_urls` returns the empty set. -/
theorem claim_C3_counterexample :
    specTokenUrls (String.toList "http://") = [String.toList "http://"] ∧
    extract_urls (String.toList "http://") = [] := by
  exact ⟨by decide, by decide⟩

/-- Claim C3 (amended): each string returned by `extract_urls` is the
maximal non-whitespace run starting at a left-to-right, non-overlapping
occurrence of `http://` or `https://` that is followed by at least one
non-whitespace character; hence on every token-aligned text (one where
each scheme occurrence starts a whitespace-delimited token and extends it
by at least one character) `extract_urls` returns exactly the deduplicated
set of maximal whitespace-delimited substrings beginning with `http://` or
`https://`; the example yields the two expected URLs, and a text without
any scheme occurrence yields the empty set. -/
theorem claim_C3_amended :
    (∀ t : List Char, tokenAligned t → extract_urls t = specTokenUrls t) ∧
    extract_urls (String.toList "see https://a.com/x and https://b.com") =
      [String.toList "https://a.com/x", String.toList "https://b.com"] ∧
    (∀ t : List Char, (∀ i, i < t.length → schemeLen (t.drop i) = none) →
      extract_urls t = []) := by
  refine ⟨?_, by decide, ?_⟩
  · intro t h
    exact extract_urls_eq_specTokenUrls h
  · intro t h
    unfold extract_urls
    rw [urls_reScan_drop_of_noscheme t.length t h, List.drop_length]
    rfl

/-- Claim C3, witness of the amended theorem on the spec's example text,
which is token-aligned. -/
theorem claim_C3_witness :
    extract_urls (String.toList "see https://a.com/x and https://b.com") =
      specTokenUrls (String.toList "see https://a.com/x and https://b.com") :=
  claim_C3_amended.1 (String.toList "see https://a.com/x and https://b.com") (by decide)

/-! ## Claim C4 -/

/-- Claim C4 (confirmed): whenever reconcile observes `elapsed ≥ 300`
seconds since `cycleStart`, it deletes every stored comment, returns
`didReset = true`, and an immediately subsequent `get_comments` returns
the empty sequence. -/
theorem claim_C4 : ∀ (db : DB) (tg now t0 : Time),
    db.cycleStart = some t0 → RESET_SECONDS ≤ now - t0 →
    (reset_comments_if_needed db tg now).2.2.1 = true ∧
    ((reset_comments_if_needed db tg now).2.2.2).comments = [] ∧
    get_comments ((reset_comments_if_needed db tg now).2.2.2) = [] := by
  intro db tg now t0 h he
  rw [reconcile_expired tg h he]
  exact ⟨rfl, rfl, rfl⟩

/-- Claim C4, witness at a store with one comment, `cycleStart = 0`,
`now = 400`. -/
theorem claim_C4_witness :
    (reset_comments_if_needed (⟨[⟨1, ['u'], ['c'], 0⟩], 2, some 0⟩ : DB) 0 400).2.2.1 = true ∧
    ((reset_comments_if_needed (⟨[⟨1, ['u'], ['c'], 0⟩], 2, some 0⟩ : DB) 0 400).2.2.2).comments = [] ∧
    get_comments ((reset_comments_if_needed (⟨[⟨1, ['u'], ['c'], 0⟩], 2, some 0⟩ : DB) 0 400).2.2.2) = [] :=
  claim_C4 ⟨[⟨1, ['u'], ['c'], 0⟩], 2, some 0⟩ 0 400 0 rfl expired_at_400

/-! ## Claim C5 -/

/-- Claim C5 (confirmed): for every username, submitting blank (empty or
whitespace-only) content fails with the empty-content outcome in the
invite variant and in the spec-modelled plain variant, and the store's
comment count is unchanged. -/
theorem claim_C5 : ∀ (db : DB) (now : Time) (u c : List Char), pyStrip c = [] →
    handle_submit db now u c = (SubmitResult.emptyContent, db) ∧
    ((handle_submit db now u c).2).comments.length = db.comments.length ∧
    submitPlain db now u c = (SubmitResult.emptyContent, db) := by
  intro db now u c h
  refine ⟨handle_submit_empty h, ?_, ?_⟩
  · rw [handle_submit_empty h]
  · unfold submitPlain
    rw [h]
    rfl

/-- Claim C5, witness at whitespace-only content. -/
theorem claim_C5_witness :
    handle_submit (⟨[], 1, some 0⟩ : DB) 0 (String.toList "u") (String.toList "  ") =
      (SubmitResult.emptyContent, (⟨[], 1, some 0⟩ : DB)) ∧
    ((handle_submit (⟨[], 1, some 0⟩ : DB) 0 (String.toList "u")
      (String.toList "  ")).2).comments.length = ((⟨[], 1, some 0⟩ : DB)).comments.length ∧
    submitPlain (⟨[], 1, some 0⟩ : DB) 0 (String.toList "u") (String.toList "  ") =
      (SubmitResult.emptyContent, (⟨[], 1, some 0⟩ : DB)) :=
  claim_C5 ⟨[], 1, some 0⟩ 0 (String.toList "u") (String.toList "  ") (by decide)

/-! ## Claim C6 -/

/-- Claim C6 (confirmed): on every successful submission the stored (and
first-displayed) comment carries the trimmed content and the trimmed
username, defaulted to the configured default when blank after trimming. -/
theorem claim_C6 : ∀ (db : DB) (now : Time) (u c : List Char),
    (handle_submit db now u c).1 = SubmitResult.success →
    ((handle_submit db now u c).2).comments =
      db.comments ++ [⟨db.nextId,
        (if (pyStrip u).isEmpty then defaultUsername else pyStrip u), pyStrip c, now⟩] ∧
    (get_comments ((handle_submit db now u c).2)).head? =
      some ⟨db.nextId,
        (if (pyStrip u).isEmpty then defaultUsername else pyStrip u), pyStrip c, now⟩ := by
  intro db now u c h
  rw [handle_submit_success_inv h]
  refine ⟨rfl, ?_⟩
  simp [get_comments, add_comment]

/-- Claim C6, witness: a blank username and content with surrounding
whitespace are stored as the default username and the trimmed content. -/
theorem claim_C6_witness :
    ((handle_submit (⟨[], 7, some 0⟩ : DB) 5 []
      (String.toList " https://gf2-h5.haoplay.com/der-strandurlaub/kr/share?invite_token=AAA ")).2).comments =
      [] ++ [⟨7, (if (pyStrip []).isEmpty then defaultUsername else pyStrip []),
        pyStrip (String.toList " https://gf2-h5.haoplay.com/der-strandurlaub/kr/share?invite_token=AAA "), 5⟩] ∧
    (get_comments ((handle_submit (⟨[], 7, some 0⟩ : DB) 5 []
      (String.toList " https://gf2-h5.haoplay.com/der-strandurlaub/kr/share?invite_token=AAA ")).2)).head? =
      some ⟨7, (if (pyStrip []).isEmpty then defaultUsername else pyStrip []),
        pyStrip (String.toList " https://gf2-h5.haoplay.com/der-strandurlaub/kr/share?invite_token=AAA "), 5⟩ :=
  claim_C6 ⟨[], 7, some 0⟩ 5 []
    (String.toList " https://gf2-h5.haoplay.com/der-strandurlaub/kr/share?invite_token=AAA ")
    (by decide)

/-! ## Claim C7 -/

/-- Claim C7 (confirmed): after first access exactly one cycle-start
record exists (the record is present after `get_cycle_start` and after
every reconcile), and the stored `cycleStart` is monotonically
non-decreasing across every operation: a reset sets it to the current
time, which is never earlier than the previous `cycleStart`; appending a
comment and the submit handler never change it. -/
theorem claim_C7 :
    (∀ (db : DB) (now : Time), ((get_cycle_start db now).2).cycleStart.isSome = true) ∧
    (∀ (db : DB) (tg now : Time),
      (((reset_comments_if_needed db tg now).2.2.2).cycleStart).isSome = true) ∧
    (∀ (db : DB) (tg now t0 : Time), db.cycleStart = some t0 →
      ∃ t1, ((reset_comments_if_needed db tg now).2.2.2).cycleStart = some t1 ∧
        t0 ≤ t1 ∧ ((reset_comments_if_needed db tg now).2.2.1 = true → t1 = now)) ∧
    (∀ (db : DB) (u c : List Char) (now : Time),
      (add_comment db u c now).cycleStart = db.cycleStart) ∧
    (∀ (db : DB) (now : Time) (u c : List Char),
      ((handle_submit db now u c).2).cycleStart = db.cycleStart) := by
  refine ⟨?_, ?_, ?_, ?_, ?_⟩
  · intro db now
    cases h : db.cycleStart <;> simp [get_cycle_start, h]
  · intro db tg now
    cases h : db.cycleStart with
    | none =>
      rw [reconcile_fresh h tg now]
      split_ifs <;> rfl
    | some t0 =>
      by_cases he : RESET_SECONDS ≤ now - t0
      · rw [reconcile_expired tg h he]
        rfl
      · rw [reconcile_live tg h (not_le.mp he)]
        rw [h]
        rfl
  · intro db tg now t0 h
    by_cases he : RESET_SECONDS ≤ now - t0
    · rw [reconcile_expired tg h he]
      refine ⟨now, rfl, ?_, fun _ => rfl⟩
      have h300 : (0 : ℚ) < RESET_SECONDS := by norm_num [RESET_SECONDS]
      linarith
    · rw [reconcile_live tg h (not_le.mp he)]
      exact ⟨t0, h, le_refl t0, fun hf => by simp at hf⟩
  · intro db u c now
    rfl
  · intro db now u c
    by_cases h1 : pyStrip c = []
    · rw [handle_submit_empty h1]
    · by_cases h2 : gfLinks c = []
      · rw [handle_submit_missing h1 h2]
      · by_cases h3 : ∀ x ∈ gfLinks c, x ∉ get_all_urls db
        · rw [handle_submit_success h1 h2 h3]
          rfl
        · push_neg at h3
          obtain ⟨url, hu, hex⟩ := h3
          rw [(handle_submit_dup h1 hu hex).1]

/-- Claim C7, witness of the monotonicity conjunct at `cycleStart = 5`,
`now = 10` (no reset due). -/
theorem claim_C7_witness :
    ∃ t1, ((reset_comments_if_needed (⟨[], 1, some 5⟩ : DB) 0 10).2.2.2).cycleStart = some t1 ∧
      (5 : ℚ) ≤ t1 ∧
      ((reset_comments_if_needed (⟨[], 1, some 5⟩ : DB) 0 10).2.2.1 = true → t1 = 10) :=
  claim_C7.2.2.1 ⟨[], 1, some 5⟩ 0 10 5 rfl

/-! ## Claim C8 -/

/-- Claim C8 (confirmed): the scan pieces reassemble to the original text
(so `linkify` leaves all non-match text unchanged byte-for-byte and
replaces exactly the recognized URL matches); `linkify` is the identity,
hence idempotent, on every text without URLs; and on the example it wraps
the URL in the markdown hyperlink with the surrounding text unchanged. -/
theorem claim_C8 :
    (∀ t : List Char, ((reScan t).map plainPiece).flatten = t) ∧
    (∀ t : List Char, extract_urls t = [] →
      linkify t = t ∧ linkify (linkify t) = linkify t) ∧
    linkify (String.toList "hello https://a.com world") =
      String.toList "hello [https://a.com](https://a.com) world" := by
  refine ⟨reScan_plain_flatten, ?_, by decide⟩
  intro t h
  have hurls : urlsOfPieces (reScan t) = [] := by
    unfold extract_urls at h
    exact (List.dedup_eq_nil _).mp h
  have heq := linkify_eq_self_of_no_urls hurls
  refine ⟨heq, ?_⟩
  rw [heq]
  exact heq

/-- Claim C8, witness: `linkify` is the identity and idempotent on a text
with no URLs. -/
theorem claim_C8_witness :
    linkify (String.toList "no links in this text") = String.toList "no links in this text" ∧
    linkify (linkify (String.toList "no links in this text")) =
      linkify (String.toList "no links in this text") :=
  claim_C8.2.1 (String.toList "no links in this text") (by decide)

/-! ## Claim C9 -/

/-- Claim C9 (confirmed): in every state whose cycle has not yet expired
(`elapsed < 300`), reconcile returns the existing `cycleStart` with
`didReset = false` and leaves the whole store (comments and cycle record)
unchanged; a second reconcile with no time advance returns the identical
result. -/
theorem claim_C9 : ∀ (db : DB) (tg tg2 now t0 : Time),
    db.cycleStart = some t0 → now - t0 < RESET_SECONDS →
    reset_comments_if_needed db tg now = (t0, now - t0, false, db) ∧
    reset_comments_if_needed ((reset_comments_if_needed db tg now).2.2.2) tg2 now =
      (t0, now - t0, false, db) := by
  intro db tg tg2 now t0 h hlt
  have h1 := reconcile_live tg h hlt
  refine ⟨h1, ?_⟩
  rw [h1]
  exact reconcile_live tg2 h hlt

/-- Claim C9, witness at `cycleStart = 0`, `now = 100`. -/
theorem claim_C9_witness :
    reset_comments_if_needed (⟨[], 1, some 0⟩ : DB) 0 100 =
      (0, 100 - 0, false, (⟨[], 1, some 0⟩ : DB)) ∧
    reset_comments_if_needed
      ((reset_comments_if_needed (⟨[], 1, some 0⟩ : DB) 0 100).2.2.2) 0 100 =
      (0, 100 - 0, false, (⟨[], 1, some 0⟩ : DB)) :=
  claim_C9 ⟨[], 1, some 0⟩ 0 0 100 0 rfl live_at_100

/-! ## Claim C10 -/

/-- Claim C10 (confirmed): for every text, `extract_urls` of the trimmed
text equals `extract_urls` of the original, so the duplicate-link
validation performed on the raw submitted content agrees with the URLs
later extracted from the trimmed content actually stored (the
required-prefix link set is likewise unchanged by trimming). -/
theorem claim_C10 : ∀ t : List Char,
    extract_urls (pyStrip t) = extract_urls t ∧ gfLinks (pyStrip t) = gfLinks t := by
  intro t
  refine ⟨extract_urls_pyStrip t, ?_⟩
  unfold gfLinks
  rw [extract_urls_pyStrip]

end EventComment
